import Mathlib

/-!
Shallow embedding of the statistical core of the avalanche-gini repository:
the entity grouper (by_address in analyze.py, by_address in stakes.py,
by_address_ext in nakamoto_analysis.py), the GINI coefficient, the Nakamoto
coefficient, the quarterly date selection, and the reference distribution
generators, together with proofs of the specified properties.

Machine floating point numbers are embedded as rational numbers, JSON
integers as Int, Python frozenset of strings as Finset String, Python dict
(insertion ordered) as an association list.
-/

namespace AvalancheGini

/-- Left insertion point of numpy searchsorted with side equal to left:
on a sorted ascending list this is the index of the first element that is
greater than or equal to the target, and the list length when no such
element exists.  Embedded as the length of the longest prefix of elements
strictly below the target, which agrees with the binary search of numpy on
sorted input. -/
def searchsorted (l : List ℚ) (t : ℚ) : Nat :=
  (l.takeWhile (fun x => decide (x < t))).length

/-- numpy cumsum: the list of partial sums, entry i holding the sum of the
first i+1 elements. -/
def cumsum (l : List ℚ) : List ℚ :=
  (List.range l.length).map (fun i => (l.take (i + 1)).sum)

/-- numpy sort (ascending), embedded as an insertion sort. -/
def sortAsc (l : List ℚ) : List ℚ :=
  l.insertionSort (fun a b => a ≤ b)

/-- numpy sort followed by reversal, sorting descending, embedded as an
insertion sort with the reversed order. -/
def sortDesc (l : List ℚ) : List ℚ :=
  l.insertionSort (fun a b => b ≤ a)

/-- nakamoto from hist/analyze.py: minimum number of entities controlling
at least the threshold share of total stake. -/
def nakamoto (weights : List ℚ) (threshold : ℚ) : Nat :=
  if weights.length = 0 then 0
  else
    let total := weights.sum
    let sorted_weights := sortDesc weights
    let cs := cumsum sorted_weights
    let target := total * threshold
    searchsorted cs target + 1

/-- Sum of the k largest weights: the sum of the first k entries of the
descending sort. -/
def topSum (weights : List ℚ) (k : Nat) : ℚ :=
  ((sortDesc weights).take k).sum

/-- Mean absolute difference over all ordered pairs, the mean of the outer
absolute difference matrix of numpy. -/
def mad (a : List ℚ) : ℚ :=
  ((a.map (fun x => (a.map (fun y => |x - y|)).sum)).sum) / ((a.length : ℚ) * (a.length : ℚ))

/-- Arithmetic mean of a list, numpy mean on nonempty input. -/
def mean (a : List ℚ) : ℚ := a.sum / (a.length : ℚ)

/-- gini from hist/analyze.py, with the explicit empty guard. -/
def gini (a : List ℚ) : ℚ :=
  if a.length = 0 then 0
  else mad a / mean a * (1 / 2)

/-- gini from stakes.py: no empty guard; numpy mean over an empty array is
undefined (NaN), embedded as none. -/
def gini_stakes (a : List ℚ) : Option ℚ :=
  if a.length = 0 then none
  else some (mad a / mean a * (1 / 2))

section SearchsortedLemmas

theorem searchsorted_le_length (l : List ℚ) (t : ℚ) : searchsorted l t ≤ l.length := by
  unfold searchsorted
  induction l with
  | nil => simp
  | cons a l ih =>
      by_cases h : a < t
      · simp [List.takeWhile, h]
        exact ih
      · simp [List.takeWhile, h]

theorem searchsorted_mono (l : List ℚ) {t t' : ℚ} (h : t ≤ t') :
    searchsorted l t ≤ searchsorted l t' := by
  unfold searchsorted
  induction l with
  | nil => simp
  | cons a l ih =>
      by_cases ha : a < t
      · have ha' : a < t' := lt_of_lt_of_le ha h
        simp [List.takeWhile, ha, ha']
        exact ih
      · simp [List.takeWhile, ha]

theorem get_lt_of_lt_searchsorted (l : List ℚ) (t : ℚ) (j : Nat)
    (hj : j < searchsorted l t) (hl : j < l.length) : l.get ⟨j, hl⟩ < t := by
  induction l generalizing j with
  | nil => simp at hl
  | cons a l ih =>
      by_cases ha : a < t
      · cases j with
        | zero => simpa using ha
        | succ j =>
            have hj' : j < searchsorted l t := by
              unfold searchsorted at hj ⊢
              simpa [List.takeWhile, ha] using hj
            exact ih j hj' (by simpa using Nat.lt_of_succ_lt_succ hl)
      · unfold searchsorted at hj
        simp [List.takeWhile, ha] at hj

theorem searchsorted_le_of_ge (l : List ℚ) (t : ℚ) (i : Nat) (hi : i < l.length)
    (h : t ≤ l.get ⟨i, hi⟩) : searchsorted l t ≤ i := by
  by_contra hc
  push_neg at hc
  exact absurd (get_lt_of_lt_searchsorted l t i hc hi) (not_lt.mpr h)

theorem t_le_get?_searchsorted (l : List ℚ) (t : ℚ) (x : ℚ)
    (h : l.get? (searchsorted l t) = some x) : t ≤ x := by
  induction l generalizing x with
  | nil => simp at h
  | cons a l ih =>
      by_cases ha : a < t
      · have hs : searchsorted (a :: l) t = searchsorted l t + 1 := by
          unfold searchsorted
          simp [List.takeWhile, ha]
        rw [hs] at h
        exact ih x (by simpa using h)
      · have hs : searchsorted (a :: l) t = 0 := by
          unfold searchsorted
          simp [List.takeWhile, ha]
        rw [hs] at h
        simp at h
        rw [← h]
        exact not_lt.mp ha

theorem t_le_get_searchsorted (l : List ℚ) (t : ℚ)
    (h : searchsorted l t < l.length) : t ≤ l.get ⟨searchsorted l t, h⟩ :=
  t_le_get?_searchsorted l t _ (List.get?_eq_get h)

theorem searchsorted_eq_zero (l : List ℚ) (t : ℚ) (h : ∀ x ∈ l, t ≤ x) :
    searchsorted l t = 0 := by
  cases l with
  | nil => rfl
  | cons a l =>
      have ha : ¬ a < t := not_lt.mpr (h a (by simp))
      unfold searchsorted
      simp [List.takeWhile, ha]

end SearchsortedLemmas

section CumsumLemmas

theorem cumsum_length (l : List ℚ) : (cumsum l).length = l.length := by
  simp [cumsum]

theorem cumsum_get (l : List ℚ) (i : Nat) (h : i < (cumsum l).length) :
    (cumsum l).get ⟨i, h⟩ = (l.take (i + 1)).sum := by
  simp [cumsum]

theorem cumsum_mem (l : List ℚ) (x : ℚ) (hx : x ∈ cumsum l) :
    ∃ i, i < l.length ∧ x = (l.take (i + 1)).sum := by
  unfold cumsum at hx
  rcases List.mem_map.mp hx with ⟨i, hi, hxi⟩
  exact ⟨i, List.mem_range.mp hi, hxi.symm⟩

end CumsumLemmas

section SortLemmas

theorem sortDesc_perm (l : List ℚ) : List.Perm (sortDesc l) l :=
  List.perm_insertionSort _ l

theorem sortDesc_sum (l : List ℚ) : (sortDesc l).sum = l.sum :=
  (sortDesc_perm l).sum_eq

theorem sortDesc_length (l : List ℚ) : (sortDesc l).length = l.length :=
  (sortDesc_perm l).length_eq

theorem sortDesc_mem (l : List ℚ) (x : ℚ) : x ∈ sortDesc l ↔ x ∈ l :=
  (sortDesc_perm l).mem_iff

theorem sortDesc_sorted (l : List ℚ) : (sortDesc l).Sorted (fun a b => b ≤ a) :=
  List.sorted_insertionSort _ l

end SortLemmas

section NakamotoLemmas

theorem nakamoto_nil (t : ℚ) : nakamoto [] t = 0 := rfl

theorem nakamoto_eq_of_ne_nil (w : List ℚ) (t : ℚ) (hw : w ≠ []) :
    nakamoto w t = searchsorted (cumsum (sortDesc w)) (w.sum * t) + 1 := by
  unfold nakamoto
  simp [List.length_eq_zero, hw]

theorem nakamoto_ss_lt_length (w : List ℚ) (t : ℚ) (hw : w ≠ [])
    (hnn : ∀ x ∈ w, 0 ≤ x) (ht : t ≤ 1) :
    searchsorted (cumsum (sortDesc w)) (w.sum * t) < (cumsum (sortDesc w)).length := by
  have hn : 0 < (sortDesc w).length := by
    rw [sortDesc_length]
    exact List.length_pos.mpr hw
  have hlen : (cumsum (sortDesc w)).length = (sortDesc w).length := cumsum_length _
  have hidx : (sortDesc w).length - 1 < (cumsum (sortDesc w)).length := by omega
  have hone : (sortDesc w).length - 1 + 1 = (sortDesc w).length := by omega
  have hget : (cumsum (sortDesc w)).get ⟨(sortDesc w).length - 1, hidx⟩ = w.sum := by
    rw [cumsum_get, hone, List.take_length, sortDesc_sum]
  have hsum : 0 ≤ w.sum := List.sum_nonneg hnn
  have htarget : w.sum * t ≤ w.sum := by
    calc w.sum * t ≤ w.sum * 1 := mul_le_mul_of_nonneg_left ht hsum
    _ = w.sum := mul_one _
  have hle := searchsorted_le_of_ge (cumsum (sortDesc w)) (w.sum * t)
    ((sortDesc w).length - 1) hidx (by rw [hget]; exact htarget)
  omega

theorem nakamoto_reaches (w : List ℚ) (t : ℚ) (hw : w ≠ [])
    (hnn : ∀ x ∈ w, 0 ≤ x) (ht : t ≤ 1) :
    w.sum * t ≤ topSum w (nakamoto w t) := by
  have hss := nakamoto_ss_lt_length w t hw hnn ht
  have hle := t_le_get_searchsorted (cumsum (sortDesc w)) (w.sum * t) hss
  rw [cumsum_get] at hle
  rw [nakamoto_eq_of_ne_nil w t hw]
  exact hle

theorem nakamoto_min (w : List ℚ) (t : ℚ) (hw : w ≠ [])
    (hnn : ∀ x ∈ w, 0 ≤ x) (ht : t ≤ 1) (k : Nat) (hk : 1 ≤ k)
    (hks : w.sum * t ≤ topSum w k) : nakamoto w t ≤ k := by
  rw [nakamoto_eq_of_ne_nil w t hw]
  by_cases hkn : k ≤ w.length
  · have hidx : k - 1 < (cumsum (sortDesc w)).length := by
      rw [cumsum_length, sortDesc_length]
      omega
    have hone : k - 1 + 1 = k := by omega
    have hget : (cumsum (sortDesc w)).get ⟨k - 1, hidx⟩ = topSum w k := by
      rw [cumsum_get, hone]
      rfl
    have hle := searchsorted_le_of_ge (cumsum (sortDesc w)) (w.sum * t) (k - 1) hidx
      (by rw [hget]; exact hks)
    omega
  · have hss := nakamoto_ss_lt_length w t hw hnn ht
    rw [cumsum_length, sortDesc_length] at hss
    omega

theorem nakamoto_one_le (w : List ℚ) (t : ℚ) (hw : w ≠ []) : 1 ≤ nakamoto w t := by
  rw [nakamoto_eq_of_ne_nil w t hw]
  omega

end NakamotoLemmas

/-- C1: for a nonempty sequence of non-negative weights and a threshold t
in (0,1), nakamoto returns the smallest k greater or equal 1 such that the
sum of the k largest weights reaches t times the total sum; on the empty
sequence it returns 0. -/
theorem claim_C1_nakamoto_smallest_k (w : List ℚ) (t : ℚ) (ht0 : 0 < t) (ht1 : t < 1)
    (hnn : ∀ x ∈ w, 0 ≤ x) :
    nakamoto [] t = 0 ∧
    (w ≠ [] →
      1 ≤ nakamoto w t ∧
      t * w.sum ≤ topSum w (nakamoto w t) ∧
      ∀ k : Nat, 1 ≤ k → t * w.sum ≤ topSum w k → nakamoto w t ≤ k) := by
  refine ⟨nakamoto_nil t, fun hw => ⟨nakamoto_one_le w t hw, ?_, ?_⟩⟩
  · rw [mul_comm]
    exact nakamoto_reaches w t hw hnn (le_of_lt ht1)
  · intro k hk hks
    exact nakamoto_min w t hw hnn (le_of_lt ht1) k hk (by rw [mul_comm] at hks; exact hks)

/-- Witness for C1 at the spec example: weights 70,10,10,10 and threshold
0.30 give Nakamoto coefficient 1. -/
theorem claim_C1_nakamoto_smallest_k_witness :
    nakamoto [70, 10, 10, 10] (3 / 10) = 1 ∧
    (3 : ℚ) / 10 * ([70, 10, 10, 10] : List ℚ).sum ≤
      topSum [70, 10, 10, 10] (nakamoto [70, 10, 10, 10] (3 / 10)) := by
  have h := (claim_C1_nakamoto_smallest_k [70, 10, 10, 10] (3 / 10)
    (by norm_num) (by norm_num) (by intro x hx; fin_cases hx <;> norm_num)).2
    (by simp)
  exact ⟨by with_unfolding_all rfl, h.2.1⟩

/-- C10: for fixed non-negative weights, the Nakamoto coefficient is
monotone in the threshold: a smaller threshold never needs more entities. -/
theorem claim_C10_nakamoto_threshold_mono (w : List ℚ) (t1 t2 : ℚ)
    (ht0 : 0 < t1) (h12 : t1 ≤ t2) (ht2 : t2 ≤ 1) (hnn : ∀ x ∈ w, 0 ≤ x) :
    nakamoto w t1 ≤ nakamoto w t2 := by
  cases hw : w with
  | nil => simp [nakamoto_nil]
  | cons a l =>
      rw [← hw]
      have hw' : w ≠ [] := by simp [hw]
      rw [nakamoto_eq_of_ne_nil w t1 hw', nakamoto_eq_of_ne_nil w t2 hw']
      have hsum : 0 ≤ w.sum := List.sum_nonneg hnn
      have htt : w.sum * t1 ≤ w.sum * t2 := mul_le_mul_of_nonneg_left h12 hsum
      have := searchsorted_mono (cumsum (sortDesc w)) htt
      omega

/-- Witness for C10 at weights 70,10,10,10 with thresholds 0.30 and 0.50. -/
theorem claim_C10_nakamoto_threshold_mono_witness :
    nakamoto [70, 10, 10, 10] (3 / 10) ≤ nakamoto [70, 10, 10, 10] (1 / 2) :=
  claim_C10_nakamoto_threshold_mono [70, 10, 10, 10] (3 / 10) (1 / 2)
    (by norm_num) (by norm_num) (by norm_num)
    (by intro x hx; fin_cases hx <;> norm_num)

section FullThreshold

theorem sum_pos_of_mem_pos {l : List ℚ} (hnn : ∀ x ∈ l, 0 ≤ x) {y : ℚ}
    (hy : y ∈ l) (hy0 : 0 < y) : 0 < l.sum := by
  induction l with
  | nil => simp at hy
  | cons a l ih =>
      rw [List.sum_cons]
      rcases List.mem_cons.mp hy with h | h
      · have hl : 0 ≤ l.sum := List.sum_nonneg (fun x hx => hnn x (List.mem_cons_of_mem a hx))
        rw [← h]
        linarith
      · have ha : 0 ≤ a := hnn a (List.mem_cons_self a l)
        have := ih (fun x hx => hnn x (List.mem_cons_of_mem a hx)) h
        linarith

theorem sorted_desc_dropWhile_zero {l : List ℚ} (hs : l.Sorted (fun a b => b ≤ a))
    (hnn : ∀ x ∈ l, 0 ≤ x) :
    ∀ x ∈ l.dropWhile (fun x => decide (0 < x)), x = 0 := by
  induction l with
  | nil => simp
  | cons a l ih =>
      obtain ⟨ha, hl⟩ := List.sorted_cons.mp hs
      by_cases h0 : 0 < a
      · rw [List.dropWhile_cons]
        simp only [h0, decide_True, if_true]
        exact ih hl (fun x hx => hnn x (List.mem_cons_of_mem a hx))
      · rw [List.dropWhile_cons]
        simp only [h0, decide_False, if_false]
        intro x hx
        rcases List.mem_cons.mp hx with h | h
        · rw [h]
          exact le_antisymm (not_lt.mp h0) (hnn a (List.mem_cons_self a l))
        · have hxa : x ≤ a := ha x h
          have hx0 : 0 ≤ x := hnn x (List.mem_cons_of_mem a h)
          have ha0 : a ≤ 0 := not_lt.mp h0
          linarith

theorem nakamoto_full_of_exists_pos (w : List ℚ) (hnn : ∀ x ∈ w, 0 ≤ x)
    (hex : ∃ x ∈ w, 0 < x) :
    nakamoto w 1 = w.countP (fun x => decide (x ≠ 0)) := by
  obtain ⟨y, hy, hy0⟩ := hex
  have hw : w ≠ [] := List.ne_nil_of_mem hy
  have hnns : ∀ x ∈ sortDesc w, 0 ≤ x := fun x hx => hnn x ((sortDesc_mem w x).mp hx)
  set P := (sortDesc w).takeWhile (fun x => decide (0 < x)) with hP
  set D := (sortDesc w).dropWhile (fun x => decide (0 < x)) with hD
  have hPD : P ++ D = sortDesc w := List.takeWhile_append_dropWhile _ _
  have hDz : ∀ x ∈ D, x = 0 := sorted_desc_dropWhile_zero (sortDesc_sorted w) hnns
  have hDsum : D.sum = 0 := List.sum_eq_zero hDz
  have hPpos : ∀ x ∈ P, 0 < x := fun x hx => by
    have := List.mem_takeWhile_imp hx
    simpa using this
  have hPsum : P.sum = w.sum := by
    have : (P ++ D).sum = (sortDesc w).sum := by rw [hPD]
    rw [List.sum_append, hDsum, add_zero, sortDesc_sum] at this
    exact this
  -- the positive prefix is nonempty
  have hyP : y ∈ P := by
    have hys : y ∈ sortDesc w := (sortDesc_mem w y).mpr hy
    rw [← hPD] at hys
    rcases List.mem_append.mp hys with h | h
    · exact h
    · exact absurd (hDz y h) (ne_of_gt hy0)
  have hm1 : 1 ≤ P.length := List.length_pos.mpr (List.ne_nil_of_mem hyP)
  -- count of nonzero entries equals the length of the positive prefix
  have hcount : w.countP (fun x => decide (x ≠ 0)) = P.length := by
    have hperm := (sortDesc_perm w).countP_eq (fun x => decide (x ≠ 0))
    rw [← hperm, ← hPD, List.countP_append]
    have hcP : P.countP (fun x => decide (x ≠ 0)) = P.length :=
      List.countP_eq_length.mpr (fun x hx => by simpa using ne_of_gt (hPpos x hx))
    have hcD : D.countP (fun x => decide (x ≠ 0)) = 0 :=
      List.countP_eq_zero.mpr (fun x hx => by simpa using hDz x hx)
    rw [hcP, hcD, add_zero]
  rw [hcount]
  -- topSum at the prefix length reaches the full sum
  have htop : topSum w P.length = w.sum := by
    unfold topSum
    rw [← hPD, List.take_left, hPsum]
  have hle : nakamoto w 1 ≤ P.length := by
    apply nakamoto_min w 1 hw hnn le_rfl P.length hm1
    rw [mul_one, htop]
  -- any strictly shorter prefix misses a positive weight
  have hge : P.length ≤ nakamoto w 1 := by
    by_contra hc
    push_neg at hc
    have hk1 : 1 ≤ nakamoto w 1 := nakamoto_one_le w 1 hw
    have hreach := nakamoto_reaches w 1 hw hnn le_rfl
    rw [mul_one] at hreach
    set k := nakamoto w 1 with hk
    have htopk : topSum w k = (P.take k).sum := by
      unfold topSum
      rw [← hPD, List.take_append_eq_append_take]
      have : k - P.length = 0 := by omega
      rw [this]
      simp
    have hsplit : (P.take k).sum + (P.drop k).sum = P.sum := by
      rw [← List.sum_append, List.take_append_drop]
    have hdrop_ne : P.drop k ≠ [] := by
      have : (P.drop k).length = P.length - k := List.length_drop k P
      intro hnil
      rw [hnil] at this
      simp at this
      omega
    obtain ⟨z, hz⟩ := List.exists_mem_of_ne_nil _ hdrop_ne
    have hz0 : 0 < z := hPpos z (List.drop_subset k P hz)
    have hdpos : 0 < (P.drop k).sum :=
      sum_pos_of_mem_pos (fun x hx => le_of_lt (hPpos x (List.drop_subset k P hx))) hz hz0
    have : topSum w k < w.sum := by
      rw [htopk, ← hPsum]
      linarith [hsplit, hdpos]
    linarith [hreach, this]
  exact le_antisymm hle hge

theorem nakamoto_all_zero (w : List ℚ) (hw : w ≠ []) (hz : ∀ x ∈ w, x = 0) :
    nakamoto w 1 = 1 := by
  rw [nakamoto_eq_of_ne_nil w 1 hw]
  have hzero : searchsorted (cumsum (sortDesc w)) (w.sum * 1) = 0 := by
    apply searchsorted_eq_zero
    intro x hx
    rcases cumsum_mem _ x hx with ⟨i, hi, hxe⟩
    have hsz : w.sum = 0 := List.sum_eq_zero hz
    rw [hsz, zero_mul, hxe]
    apply List.sum_nonneg
    intro y hy
    have hys : y ∈ sortDesc w := List.take_subset _ _ hy
    rw [sortDesc_mem] at hys
    exact le_of_eq (hz y hys).symm
  omega

end FullThreshold

/-- C7 as stated is false: on the all-zero nonempty vector [0] the code
returns 1 while the number of nonzero entries is 0. -/
theorem claim_C7_counterexample :
    nakamoto [0] 1 ≠ ([0] : List ℚ).countP (fun x => decide (x ≠ 0)) := by
  have h1 : nakamoto [0] 1 = 1 := by with_unfolding_all rfl
  have h2 : ([0] : List ℚ).countP (fun x => decide (x ≠ 0)) = 0 := by with_unfolding_all rfl
  omega

/-- C7 amended: for non-negative weights with at least one positive entry,
nakamoto at threshold 1 equals the number of nonzero entries; on a nonempty
all-zero vector it returns 1 instead of 0. -/
theorem claim_C7_nakamoto_full_threshold (w : List ℚ) (hnn : ∀ x ∈ w, 0 ≤ x) :
    ((∃ x ∈ w, 0 < x) → nakamoto w 1 = w.countP (fun x => decide (x ≠ 0))) ∧
    (w ≠ [] → (∀ x ∈ w, x = 0) → nakamoto w 1 = 1) :=
  ⟨fun hex => nakamoto_full_of_exists_pos w hnn hex,
   fun hw hz => nakamoto_all_zero w hw hz⟩

/-- Witness for C7 at weights 2,0,3: the full-threshold Nakamoto
coefficient equals the nonzero count 2. -/
theorem claim_C7_nakamoto_full_threshold_witness :
    nakamoto [2, 0, 3] 1 = ([2, 0, 3] : List ℚ).countP (fun x => decide (x ≠ 0)) :=
  (claim_C7_nakamoto_full_threshold [2, 0, 3]
    (by intro x hx; fin_cases hx <;> norm_num)).1 ⟨2, by norm_num⟩

section GiniLemmas

theorem half_div_eq (x m : ℚ) : x / m * (1 / 2) = x / (2 * m) := by
  rw [div_mul_div_comm, mul_one, mul_comm m 2]

end GiniLemmas

/-- C2 as stated is false for the stakes.py variant: on an empty input the
stakes.py gini has no length guard and numpy propagates an undefined mean
(NaN), so it does not return 0.0. -/
theorem claim_C2_counterexample : gini_stakes [] ≠ some 0 := by
  simp [gini_stakes]

/-- C2 amended: on a length-0 input the analyze.py gini returns 0.0 while
the stakes.py gini yields an undefined result; on any other input both
return the mean absolute difference over all ordered pairs divided by twice
the arithmetic mean. -/
theorem claim_C2_gini_formula (a : List ℚ) (hnn : ∀ x ∈ a, 0 ≤ x) :
    (a.length = 0 → gini a = 0 ∧ gini_stakes a = none) ∧
    (a.length ≠ 0 →
      gini a = mad a / (2 * mean a) ∧ gini_stakes a = some (mad a / (2 * mean a))) := by
  constructor
  · intro h0
    exact ⟨by simp [gini, h0], by simp [gini_stakes, h0]⟩
  · intro h0
    constructor
    · rw [gini, if_neg h0, half_div_eq]
    · rw [gini_stakes, if_neg h0, half_div_eq]

/-- Witness for C2 at the empty list and at the list 1,2. -/
theorem claim_C2_gini_formula_witness :
    gini [] = 0 ∧ gini_stakes [] = none ∧
    gini [1, 2] = mad [1, 2] / (2 * mean [1, 2]) := by
  refine ⟨?_, ?_, ?_⟩
  · exact ((claim_C2_gini_formula [] (by intro x hx; simp at hx)).1 rfl).1
  · exact ((claim_C2_gini_formula [] (by intro x hx; simp at hx)).1 rfl).2
  · exact ((claim_C2_gini_formula [1, 2]
      (by intro x hx; fin_cases hx <;> norm_num)).2 (by simp)).1

section Grouping

variable {A K V : Type} [DecidableEq K]

/-- Insert-or-update on an insertion-ordered association list: the
embedding of the Python dict idiom g = groups.get(key, default);
update g; groups[key] = g. -/
def groupUpd (k : K) (f : V → V) (d : V) : List (K × V) → List (K × V)
  | [] => [(k, f d)]
  | (q, v) :: rest => if q = k then (q, f v) :: rest else (q, v) :: groupUpd k f d rest

/-- Lookup in an association list, the embedding of a dict read. -/
def findE : List (K × V) → K → Option V
  | [], _ => none
  | (q, v) :: rest, k => if q = k then some v else findE rest k

/-- Keys of an association list in insertion order. -/
def keysOf (acc : List (K × V)) : List K := acc.map Prod.fst

@[simp]
theorem keysOf_nil : keysOf ([] : List (K × V)) = [] := rfl

@[simp]
theorem keysOf_cons (p : K × V) (rest : List (K × V)) :
    keysOf (p :: rest) = p.1 :: keysOf rest := rfl

@[simp]
theorem findE_nil (k : K) : findE ([] : List (K × V)) k = none := rfl

theorem findE_cons (q : K) (v : V) (rest : List (K × V)) (k : K) :
    findE ((q, v) :: rest) k = if q = k then some v else findE rest k := rfl

theorem groupUpd_nil (k : K) (f : V → V) (d : V) : groupUpd k f d [] = [(k, f d)] := rfl

theorem groupUpd_cons (k : K) (f : V → V) (d : V) (q : K) (v : V) (rest : List (K × V)) :
    groupUpd k f d ((q, v) :: rest) =
      if q = k then (q, f v) :: rest else (q, v) :: groupUpd k f d rest := rfl

theorem findE_isSome_iff_mem (acc : List (K × V)) (k : K) :
    (findE acc k).isSome ↔ k ∈ keysOf acc := by
  induction acc with
  | nil => simp
  | cons p rest ih =>
      obtain ⟨q, v⟩ := p
      by_cases h : q = k
      · subst h
        simp [findE_cons]
      · have h2 : ¬ k = q := fun he => h he.symm
        simp [findE_cons, h, h2, ih]

theorem findE_groupUpd_same (acc : List (K × V)) (k : K) (f : V → V) (d : V) :
    findE (groupUpd k f d acc) k = some (f ((findE acc k).getD d)) := by
  induction acc with
  | nil => simp [groupUpd_nil, findE_cons]
  | cons p rest ih =>
      obtain ⟨q, v⟩ := p
      by_cases h : q = k
      · subst h
        simp [groupUpd_cons, findE_cons]
      · simp [groupUpd_cons, findE_cons, h, ih]

theorem findE_groupUpd_other (acc : List (K × V)) (k k' : K) (f : V → V) (d : V)
    (h : k' ≠ k) : findE (groupUpd k f d acc) k' = findE acc k' := by
  have hkk : ¬ k = k' := fun he => h he.symm
  induction acc with
  | nil => simp [groupUpd_nil, findE_cons, hkk]
  | cons p rest ih =>
      obtain ⟨q, v⟩ := p
      by_cases hq : q = k
      · subst hq
        simp [groupUpd_cons, findE_cons, hkk]
      · simp [groupUpd_cons, findE_cons, hq, ih]

theorem keysOf_groupUpd (acc : List (K × V)) (k : K) (f : V → V) (d : V) :
    keysOf (groupUpd k f d acc) =
      if k ∈ keysOf acc then keysOf acc else keysOf acc ++ [k] := by
  induction acc with
  | nil => simp [groupUpd_nil]
  | cons p rest ih =>
      obtain ⟨q, v⟩ := p
      by_cases h : q = k
      · subst h
        simp [groupUpd_cons]
      · have h2 : ¬ k = q := fun he => h he.symm
        rw [groupUpd_cons, if_neg h]
        by_cases hk : k ∈ keysOf rest
        · have hmem : k ∈ keysOf ((q, v) :: rest) := by simp [hk]
          rw [if_pos hmem]
          simp only [keysOf_cons]
          rw [ih, if_pos hk]
        · have hmem : k ∉ keysOf ((q, v) :: rest) := by simp [h2, hk]
          rw [if_neg hmem]
          simp only [keysOf_cons]
          rw [ih, if_neg hk]
          rfl

theorem mem_keysOf_groupUpd (acc : List (K × V)) (k : K) (f : V → V) (d : V) (k' : K) :
    k' ∈ keysOf (groupUpd k f d acc) ↔ k' ∈ keysOf acc ∨ k' = k := by
  rw [keysOf_groupUpd]
  by_cases h : k ∈ keysOf acc
  · rw [if_pos h]
    constructor
    · exact fun hm => Or.inl hm
    · rintro (hm | he)
      · exact hm
      · rw [he]
        exact h
  · rw [if_neg h]
    simp

theorem nodup_keysOf_groupUpd (acc : List (K × V)) (k : K) (f : V → V) (d : V)
    (hnd : (keysOf acc).Nodup) : (keysOf (groupUpd k f d acc)).Nodup := by
  rw [keysOf_groupUpd]
  by_cases h : k ∈ keysOf acc
  · rw [if_pos h]
    exact hnd
  · rw [if_neg h]
    simp [List.nodup_append, hnd]
    exact h

theorem findE_of_mem_nodup (acc : List (K × V)) (hnd : (keysOf acc).Nodup)
    (k : K) (v : V) (h : (k, v) ∈ acc) : findE acc k = some v := by
  induction acc with
  | nil => simp at h
  | cons p rest ih =>
      obtain ⟨q, w⟩ := p
      have hcons := List.nodup_cons.mp (by simpa using hnd)
      rcases List.mem_cons.mp h with he | hm
      · rw [Prod.mk.injEq] at he
        obtain ⟨hk, hv⟩ := he
        simp [findE_cons, hk.symm, hv]
      · have hk_ne : q ≠ k := by
          intro heq
          apply hcons.1
          rw [heq]
          exact List.mem_map_of_mem Prod.fst hm
        rw [findE_cons, if_neg hk_ne]
        exact ih hcons.2 hm

theorem mem_of_findE_eq_some (acc : List (K × V)) (k : K) (v : V)
    (h : findE acc k = some v) : (k, v) ∈ acc := by
  induction acc with
  | nil => simp at h
  | cons p rest ih =>
      obtain ⟨q, w⟩ := p
      by_cases hq : q = k
      · subst hq
        rw [findE_cons, if_pos rfl] at h
        simp at h
        simp [h]
      · rw [findE_cons, if_neg hq] at h
        exact List.mem_cons_of_mem _ (ih h)

end Grouping

section GroupFold

variable {A K V : Type} [DecidableEq K]

/-- Grouping loop: fold the per-record dict update over the input list,
starting from a given dict.  The Python loops of by_address and
by_address_ext are instances with the empty starting dict. -/
def groupFold (key : A → K) (upd : A → V → V) (d : V) (xs : List A)
    (acc : List (K × V)) : List (K × V) :=
  xs.foldl (fun acc a => groupUpd (key a) (upd a) d acc) acc

/-- Apply every update of a list of records to a start value. -/
def applyAll (upd : A → V → V) (as : List A) (v : V) : V :=
  as.foldl (fun v a => upd a v) v

/-- Apply every update of a list of records, starting the accumulator at
the default when the first matching record creates the entry. -/
def applyAllD (upd : A → V → V) (d : V) : List A → Option V
  | [] => none
  | a :: as => some (applyAll upd as (upd a d))

theorem groupFold_nil (key : A → K) (upd : A → V → V) (d : V) (acc : List (K × V)) :
    groupFold key upd d [] acc = acc := rfl

theorem groupFold_cons (key : A → K) (upd : A → V → V) (d : V) (a : A) (xs : List A)
    (acc : List (K × V)) :
    groupFold key upd d (a :: xs) acc =
      groupFold key upd d xs (groupUpd (key a) (upd a) d acc) := rfl

theorem findE_groupFold_some (key : A → K) (upd : A → V → V) (d : V) (k : K)
    (xs : List A) :
    ∀ (acc : List (K × V)) (v : V), findE acc k = some v →
      findE (groupFold key upd d xs acc) k =
        some (applyAll upd (xs.filter (fun a => decide (key a = k))) v) := by
  induction xs with
  | nil => intro acc v h; simpa [groupFold_nil, applyAll] using h
  | cons a xs ih =>
      intro acc v h
      rw [groupFold_cons]
      by_cases hk : key a = k
      · have hsame : findE (groupUpd (key a) (upd a) d acc) k = some (upd a v) := by
          rw [hk, findE_groupUpd_same, h]
          rfl
        rw [ih _ _ hsame]
        rw [List.filter_cons]
        simp [hk, applyAll]
      · have hother : findE (groupUpd (key a) (upd a) d acc) k = some v := by
          rw [findE_groupUpd_other _ _ _ _ _ (fun he => hk he.symm)]
          exact h
        rw [ih _ _ hother]
        rw [List.filter_cons]
        simp [hk]

theorem findE_groupFold_none (key : A → K) (upd : A → V → V) (d : V) (k : K)
    (xs : List A) :
    ∀ acc : List (K × V), findE acc k = none →
      findE (groupFold key upd d xs acc) k =
        applyAllD upd d (xs.filter (fun a => decide (key a = k))) := by
  induction xs with
  | nil => intro acc h; simpa [groupFold_nil, applyAllD] using h
  | cons a xs ih =>
      intro acc h
      rw [groupFold_cons]
      by_cases hk : key a = k
      · have hsame : findE (groupUpd (key a) (upd a) d acc) k = some (upd a d) := by
          rw [hk, findE_groupUpd_same, h]
          rfl
        rw [findE_groupFold_some key upd d k xs _ _ hsame]
        rw [List.filter_cons]
        simp [hk, applyAllD]
      · have hother : findE (groupUpd (key a) (upd a) d acc) k = none := by
          rw [findE_groupUpd_other _ _ _ _ _ (fun he => hk he.symm)]
          exact h
        rw [ih _ hother]
        rw [List.filter_cons]
        simp [hk]

theorem findE_groupFold_empty (key : A → K) (upd : A → V → V) (d : V) (k : K)
    (xs : List A) :
    findE (groupFold key upd d xs []) k =
      applyAllD upd d (xs.filter (fun a => decide (key a = k))) :=
  findE_groupFold_none key upd d k xs [] rfl

theorem mem_keysOf_groupFold (key : A → K) (upd : A → V → V) (d : V)
    (xs : List A) :
    ∀ (acc : List (K × V)) (k : K),
      k ∈ keysOf (groupFold key upd d xs acc) ↔
        k ∈ keysOf acc ∨ ∃ a ∈ xs, key a = k := by
  induction xs with
  | nil => intro acc k; simp [groupFold_nil]
  | cons a xs ih =>
      intro acc k
      rw [groupFold_cons, ih]
      rw [mem_keysOf_groupUpd]
      constructor
      · rintro ((hm | he) | ⟨b, hb, hkb⟩)
        · exact Or.inl hm
        · exact Or.inr ⟨a, by simp, he.symm⟩
        · exact Or.inr ⟨b, List.mem_cons_of_mem a hb, hkb⟩
      · rintro (hm | ⟨b, hb, hkb⟩)
        · exact Or.inl (Or.inl hm)
        · rcases List.mem_cons.mp hb with he | hb'
          · subst he
            exact Or.inl (Or.inr hkb.symm)
          · exact Or.inr ⟨b, hb', hkb⟩

theorem nodup_keysOf_groupFold (key : A → K) (upd : A → V → V) (d : V)
    (xs : List A) :
    ∀ acc : List (K × V), (keysOf acc).Nodup →
      (keysOf (groupFold key upd d xs acc)).Nodup := by
  induction xs with
  | nil => intro acc h; simpa [groupFold_nil] using h
  | cons a xs ih =>
      intro acc h
      rw [groupFold_cons]
      exact ih _ (nodup_keysOf_groupUpd _ _ _ _ h)

end GroupFold

section GroupSum

variable {A K V : Type} [DecidableEq K]

/-- Sum of an integer projection over the values of an association list. -/
def sumProj (g : V → Int) (acc : List (K × V)) : Int :=
  (acc.map (fun p => g p.2)).sum

theorem sumProj_groupUpd (g : V → Int) (k : K) (f : V → V) (d : V) (δ : Int)
    (hf : ∀ v, g (f v) = g v + δ) (hd : g d = 0) (acc : List (K × V)) :
    sumProj g (groupUpd k f d acc) = sumProj g acc + δ := by
  induction acc with
  | nil => simp [groupUpd_nil, sumProj, hf, hd]
  | cons p rest ih =>
      obtain ⟨q, v⟩ := p
      by_cases h : q = k
      · subst h
        simp [groupUpd_cons, sumProj, hf]
        ring
      · simp [groupUpd_cons, h, sumProj] at ih ⊢
        rw [ih]
        ring

theorem sumProj_groupFold (g : V → Int) (key : A → K) (upd : A → V → V) (d : V)
    (wt : A → Int) (hupd : ∀ a v, g (upd a v) = g v + wt a) (hd : g d = 0)
    (xs : List A) :
    ∀ acc : List (K × V),
      sumProj g (groupFold key upd d xs acc) = sumProj g acc + (xs.map wt).sum := by
  induction xs with
  | nil => intro acc; simp [groupFold_nil]
  | cons a xs ih =>
      intro acc
      rw [groupFold_cons, ih]
      rw [sumProj_groupUpd g (key a) (upd a) d (wt a) (hupd a) hd]
      simp
      ring

theorem proj_applyAll (g : V → Int) (upd : A → V → V) (wt : A → Int)
    (hupd : ∀ a v, g (upd a v) = g v + wt a) (as : List A) :
    ∀ v : V, g (applyAll upd as v) = g v + (as.map wt).sum := by
  induction as with
  | nil => intro v; simp [applyAll]
  | cons a as ih =>
      intro v
      have : applyAll upd (a :: as) v = applyAll upd as (upd a v) := rfl
      rw [this, ih, hupd]
      simp
      ring

end GroupSum

section DataModel

/-- GeoIP metadata carried by the extended validator records; the Python
code reads it through chained dict gets and truthiness checks, where a
missing or empty value is falsy, so the empty string plays the role of an
absent field. -/
structure Geo where
  countryCode : String
  asnumName : String
  cityName : String
  cityRegion : String
deriving DecidableEq

/-- A validator record as loaded from validators.json: the id is a string
or a list of strings, the delegated weight may appear under the newer name
delegatorWeight or the older name delegatedWeight or be absent, and
extended records add GeoIP metadata and a client version. -/
structure Validator where
  id : Sum String (List String)
  rewardAddresses : List String
  weight : Int
  delegatorWeight : Option Int
  delegatedWeight : Option Int
  totalWeight : Int
  geo : Geo := ⟨"", "", "", ""⟩
  version : String := ""
deriving DecidableEq

/-- An ownership entity as aggregated by by_address in hist/analyze.py. -/
structure Entity where
  id : Finset String
  rewardAddresses : Finset String
  weight : Int
  delegatorWeight : Int
  totalWeight : Int
deriving DecidableEq

/-- Grouping key: frozenset of the reward addresses of a record. -/
def vkey (v : Validator) : Finset String := v.rewardAddresses.toFinset

/-- Python id normalization: a list id is kept, a scalar id becomes a
singleton list. -/
def idList (v : Validator) : List String :=
  match v.id with
  | .inl s => [s]
  | .inr l => l

/-- The delegated-weight read of analyze.py and nakamoto_analysis.py:
prefer the newer field name, fall back to the older one, default to 0. -/
def delegatedOf (v : Validator) : Int :=
  v.delegatorWeight.getD (v.delegatedWeight.getD 0)

/-- Per-record group update of by_address in hist/analyze.py. -/
def addV (v : Validator) (g : Entity) : Entity :=
  { id := g.id ∪ (idList v).toFinset
    rewardAddresses := g.rewardAddresses ∪ v.rewardAddresses.toFinset
    weight := g.weight + v.weight
    delegatorWeight := g.delegatorWeight + delegatedOf v
    totalWeight := g.totalWeight + v.totalWeight }

/-- The fresh group default of by_address in hist/analyze.py. -/
def emptyEntity : Entity := ⟨∅, ∅, 0, 0, 0⟩

/-- The groups dict built by by_address of hist/analyze.py. -/
def by_address_groups (validators : List Validator) : List (Finset String × Entity) :=
  groupFold vkey addV emptyEntity validators []

/-- by_address of hist/analyze.py: the values of the groups dict. -/
def by_address (validators : List Validator) : List Entity :=
  (by_address_groups validators).map Prod.snd

/-- An entity of by_address_ext in hist/nakamoto_analysis.py, keeping the
individual validator records and GeoIP counters. -/
structure EntityExt where
  id : Finset String
  rewardAddresses : Finset String
  weight : Int
  delegatorWeight : Int
  totalWeight : Int
  validators : List Validator
  countries : Multiset String
  asns : Multiset String
  cities : Multiset String
  versions : Multiset String
deriving DecidableEq

/-- Python str of a list id, an opaque printable encoding; only its use as
a set element matters. -/
def strOfIdList (l : List String) : String := String.intercalate ", " l

/-- Id handling of by_address_ext: a string id is kept, any other shape is
converted to its string form. -/
def idStr (v : Validator) : String :=
  match v.id with
  | .inl s => s
  | .inr l => strOfIdList l

/-- Per-record group update of by_address_ext, preserving GeoIP counters. -/
def addVExt (v : Validator) (g : EntityExt) : EntityExt :=
  { id := insert (idStr v) g.id
    rewardAddresses := g.rewardAddresses ∪ v.rewardAddresses.toFinset
    weight := g.weight + v.weight
    delegatorWeight := g.delegatorWeight + delegatedOf v
    totalWeight := g.totalWeight + v.totalWeight
    validators := g.validators ++ [v]
    countries :=
      if v.geo.countryCode ≠ "" then g.countries + {v.geo.countryCode} else g.countries
    asns := if v.geo.asnumName ≠ "" then g.asns + {v.geo.asnumName} else g.asns
    cities :=
      if v.geo.cityName ≠ "" then g.cities + {v.geo.cityName ++ ", " ++ v.geo.cityRegion}
      else g.cities
    versions := if v.version ≠ "" then g.versions + {v.version} else g.versions }

/-- The fresh group default of by_address_ext. -/
def emptyEntityExt : EntityExt := ⟨∅, ∅, 0, 0, 0, [], ∅, ∅, ∅, ∅⟩

/-- The groups dict built by by_address_ext: the loop skips records whose
reward-address set is empty. -/
def by_address_ext_groups (validators : List Validator) : List (Finset String × EntityExt) :=
  validators.foldl
    (fun acc v =>
      if vkey v = ∅ then acc else groupUpd (vkey v) (addVExt v) emptyEntityExt acc) []

/-- by_address_ext of hist/nakamoto_analysis.py. -/
def by_address_ext (validators : List Validator) : List EntityExt :=
  (by_address_ext_groups validators).map Prod.snd

/-- An entity group of by_address in stakes.py; the delegated weight lives
under the older field name there. -/
structure EntityS where
  id : Finset String
  rewardAddresses : Finset String
  weight : Int
  delegatedWeight : Int
  totalWeight : Int
deriving DecidableEq

/-- Per-record group update of by_address in stakes.py: it reads
delegatedWeight by direct indexing, a KeyError when the field is absent,
embedded as none. -/
def addVS (v : Validator) (g : EntityS) : Option EntityS :=
  match v.delegatedWeight with
  | none => none
  | some dw => some
      { id := g.id ∪ (idList v).toFinset
        rewardAddresses := g.rewardAddresses ∪ v.rewardAddresses.toFinset
        weight := g.weight + v.weight
        delegatedWeight := g.delegatedWeight + dw
        totalWeight := g.totalWeight + v.totalWeight }

/-- The fresh group default of by_address in stakes.py. -/
def emptyEntityS : EntityS := ⟨∅, ∅, 0, 0, 0⟩

/-- by_address of stakes.py.  Its groups argument is a mutable default
dict that survives between calls, so it is threaded explicitly: every call
receives the dict left behind by the previous call and returns the updated
dict, whose values view is the result of the call. -/
def by_address_stakes : List Validator → List (Finset String × EntityS) →
    Option (List (Finset String × EntityS))
  | [], groups => some groups
  | v :: vs, groups =>
      match addVS v ((findE groups (vkey v)).getD emptyEntityS) with
      | none => none
      | some g => by_address_stakes vs (groupUpd (vkey v) (fun _ => g) emptyEntityS groups)

end DataModel

section GrouperLemmas

theorem addV_totalWeight (v : Validator) (g : Entity) :
    (addV v g).totalWeight = g.totalWeight + v.totalWeight := rfl

theorem addV_delegatorWeight (v : Validator) (g : Entity) :
    (addV v g).delegatorWeight = g.delegatorWeight + delegatedOf v := rfl

theorem addVExt_totalWeight (v : Validator) (g : EntityExt) :
    (addVExt v g).totalWeight = g.totalWeight + v.totalWeight := rfl

theorem by_address_groups_nodup (vs : List Validator) :
    (keysOf (by_address_groups vs)).Nodup :=
  nodup_keysOf_groupFold vkey addV emptyEntity vs [] (by simp)

theorem mem_keysOf_by_address_groups (vs : List Validator) (k : Finset String) :
    k ∈ keysOf (by_address_groups vs) ↔ ∃ v ∈ vs, vkey v = k := by
  rw [by_address_groups, mem_keysOf_groupFold]
  simp

theorem by_address_entity_totalWeight (vs : List Validator) (k : Finset String)
    (e : Entity) (h : (k, e) ∈ by_address_groups vs) :
    e.totalWeight =
      ((vs.filter (fun v => decide (vkey v = k))).map (fun v => v.totalWeight)).sum := by
  have hfind := findE_of_mem_nodup _ (by_address_groups_nodup vs) k e h
  rw [by_address_groups, findE_groupFold_empty] at hfind
  cases hfil : vs.filter (fun v => decide (vkey v = k)) with
  | nil =>
      rw [hfil] at hfind
      simp [applyAllD] at hfind
  | cons a as =>
      rw [hfil] at hfind
      simp only [applyAllD, Option.some.injEq] at hfind
      have hproj := proj_applyAll Entity.totalWeight addV (fun v => v.totalWeight)
        (fun a v => addV_totalWeight a v) as (addV a emptyEntity)
      rw [hfind] at hproj
      rw [hproj, addV_totalWeight]
      simp [emptyEntity]

theorem by_address_total_conservation (vs : List Validator) :
    ((by_address vs).map (fun e => e.totalWeight)).sum =
      (vs.map (fun v => v.totalWeight)).sum := by
  have h := sumProj_groupFold Entity.totalWeight vkey addV emptyEntity
    (fun v => v.totalWeight) (fun a v => addV_totalWeight a v) rfl vs []
  simp only [sumProj] at h
  simpa [by_address, by_address_groups, List.map_map, Function.comp] using h

theorem by_address_ext_groups_eq_filter (vs : List Validator) :
    ∀ acc : List (Finset String × EntityExt),
      vs.foldl
        (fun acc v =>
          if vkey v = ∅ then acc else groupUpd (vkey v) (addVExt v) emptyEntityExt acc)
        acc =
      groupFold vkey addVExt emptyEntityExt
        (vs.filter (fun v => decide (vkey v ≠ ∅))) acc := by
  induction vs with
  | nil => intro acc; simp [groupFold_nil]
  | cons v vs ih =>
      intro acc
      rw [List.foldl_cons, List.filter_cons]
      by_cases h : vkey v = ∅
      · rw [if_pos h]
        have hd : decide (vkey v ≠ ∅) = false := by simp [h]
        rw [hd]
        simp only [Bool.false_eq_true, if_false]
        exact ih acc
      · rw [if_neg h]
        have hd : decide (vkey v ≠ ∅) = true := by simp [h]
        rw [hd]
        simp only [if_true]
        rw [groupFold_cons]
        exact ih _

theorem by_address_ext_groups_nodup (vs : List Validator) :
    (keysOf (by_address_ext_groups vs)).Nodup := by
  rw [by_address_ext_groups, by_address_ext_groups_eq_filter]
  exact nodup_keysOf_groupFold _ _ _ _ [] (by simp)

theorem by_address_ext_entity_totalWeight (vs : List Validator) (k : Finset String)
    (e : EntityExt) (h : (k, e) ∈ by_address_ext_groups vs) :
    k ≠ ∅ ∧
    e.totalWeight =
      ((vs.filter (fun v => decide (vkey v = k))).map (fun v => v.totalWeight)).sum := by
  have hfind := findE_of_mem_nodup _ (by_address_ext_groups_nodup vs) k e h
  rw [by_address_ext_groups, by_address_ext_groups_eq_filter, findE_groupFold_empty]
    at hfind
  have hk : k ≠ ∅ := by
    intro hke
    subst hke
    have hfil : (vs.filter (fun v => decide (vkey v ≠ ∅))).filter
        (fun v => decide (vkey v = ∅)) = [] := by
      rw [List.filter_filter]
      apply List.filter_eq_nil.mpr
      intro v hv
      simp
    rw [hfil] at hfind
    simp [applyAllD] at hfind
  refine ⟨hk, ?_⟩
  have hff : (vs.filter (fun v => decide (vkey v ≠ ∅))).filter
      (fun v => decide (vkey v = k)) = vs.filter (fun v => decide (vkey v = k)) := by
    rw [List.filter_filter]
    apply List.filter_congr
    intro v hv
    by_cases hvk : vkey v = k
    · simp [hvk, hk]
    · simp [hvk]
  rw [hff] at hfind
  cases hfil : vs.filter (fun v => decide (vkey v = k)) with
  | nil =>
      rw [hfil] at hfind
      simp [applyAllD] at hfind
  | cons a as =>
      rw [hfil] at hfind
      simp only [applyAllD, Option.some.injEq] at hfind
      have hproj := proj_applyAll EntityExt.totalWeight addVExt (fun v => v.totalWeight)
        (fun a v => addVExt_totalWeight a v) as (addVExt a emptyEntityExt)
      rw [hfind] at hproj
      rw [hproj, addVExt_totalWeight]
      simp [emptyEntityExt]

theorem by_address_ext_total_conservation (vs : List Validator) :
    ((by_address_ext vs).map (fun e => e.totalWeight)).sum =
      ((vs.filter (fun v => decide (vkey v ≠ ∅))).map (fun v => v.totalWeight)).sum := by
  have h := sumProj_groupFold EntityExt.totalWeight vkey addVExt emptyEntityExt
    (fun v => v.totalWeight) (fun a v => addVExt_totalWeight a v) rfl
    (vs.filter (fun v => decide (vkey v ≠ ∅))) []
  simp only [sumProj] at h
  rw [by_address_ext, by_address_ext_groups, by_address_ext_groups_eq_filter]
  simpa [List.map_map, Function.comp] using h

end GrouperLemmas

section ExampleValidators

/-- Example validator: single reward address X, total weight 5. -/
def vX5 : Validator :=
  { id := .inl "n1", rewardAddresses := ["X"], weight := 5,
    delegatorWeight := some 0, delegatedWeight := some 0, totalWeight := 5 }

/-- Example validator: single reward address X, total weight 7. -/
def vX7 : Validator :=
  { id := .inl "n2", rewardAddresses := ["X"], weight := 7,
    delegatorWeight := some 0, delegatedWeight := some 0, totalWeight := 7 }

/-- Example validator: reward addresses A and B, total weight 3. -/
def vAB : Validator :=
  { id := .inl "n3", rewardAddresses := ["A", "B"], weight := 3,
    delegatorWeight := some 0, delegatedWeight := some 0, totalWeight := 3 }

/-- Example validator: single reward address A, total weight 4. -/
def vA : Validator :=
  { id := .inl "n4", rewardAddresses := ["A"], weight := 4,
    delegatorWeight := some 0, delegatedWeight := some 0, totalWeight := 4 }

/-- Example validator: addresses Y, X with a duplicate, total weight 3. -/
def vYXX : Validator :=
  { id := .inl "n5", rewardAddresses := ["Y", "X", "X"], weight := 3,
    delegatorWeight := some 0, delegatedWeight := some 0, totalWeight := 3 }

/-- Example validator: addresses X, Y, total weight 2. -/
def vXY : Validator :=
  { id := .inl "n6", rewardAddresses := ["X", "Y"], weight := 2,
    delegatorWeight := some 0, delegatedWeight := some 0, totalWeight := 2 }

/-- Example validator with an empty reward-address set, total weight 5. -/
def vNoAddr : Validator :=
  { id := .inl "n7", rewardAddresses := [], weight := 5,
    delegatorWeight := some 0, delegatedWeight := some 0, totalWeight := 5 }

/-- Example validator carrying only the newer delegatorWeight field. -/
def vNewField : Validator :=
  { id := .inl "n8", rewardAddresses := ["Z"], weight := 1,
    delegatorWeight := some 3, delegatedWeight := none, totalWeight := 1 }

end ExampleValidators

/-- C3 as stated is false for by_address of hist/analyze.py: a record with
an empty reward-address set is not dropped there, so on the one-record list
with empty addresses and total weight 5 the entity total is 5 while the sum
over non-empty-address validators is 0. -/
theorem claim_C3_counterexample :
    ((by_address [vNoAddr]).map (fun e => e.totalWeight)).sum ≠
      (([vNoAddr].filter (fun v => decide (vkey v ≠ ∅))).map
        (fun v => v.totalWeight)).sum := by
  with_unfolding_all decide

/-- C3 amended: grouping conserves stake: every produced entity carries
exactly the summed total weight of the validators with its key, and no
record is double counted; by_address_ext drops empty-address records, so
its overall total equals the sum over non-empty-address validators, while
by_address of analyze.py drops nothing and its overall total equals the sum
over all input validators, an empty address set forming one degenerate
entity. -/
theorem claim_C3_grouping_conserves_stake (vs : List Validator) :
    (∀ k e, (k, e) ∈ by_address_groups vs →
      e.totalWeight =
        ((vs.filter (fun v => decide (vkey v = k))).map (fun v => v.totalWeight)).sum) ∧
    ((by_address vs).map (fun e => e.totalWeight)).sum =
      (vs.map (fun v => v.totalWeight)).sum ∧
    (∀ k e, (k, e) ∈ by_address_ext_groups vs →
      e.totalWeight =
        ((vs.filter (fun v => decide (vkey v = k))).map (fun v => v.totalWeight)).sum) ∧
    ((by_address_ext vs).map (fun e => e.totalWeight)).sum =
      ((vs.filter (fun v => decide (vkey v ≠ ∅))).map (fun v => v.totalWeight)).sum :=
  ⟨fun k e h => by_address_entity_totalWeight vs k e h,
   by_address_total_conservation vs,
   fun k e h => (by_address_ext_entity_totalWeight vs k e h).2,
   by_address_ext_total_conservation vs⟩

/-- Witness for C3 on the two-validator list sharing address X: the single
produced entity carries total weight 12 and conservation holds. -/
theorem claim_C3_grouping_conserves_stake_witness :
    ((by_address [vX5, vX7]).map (fun e => e.totalWeight)).sum =
      ([vX5, vX7].map (fun v => v.totalWeight)).sum ∧
    (addV vX7 (addV vX5 emptyEntity)).totalWeight =
      (([vX5, vX7].filter (fun v => decide (vkey v = vkey vX5))).map
        (fun v => v.totalWeight)).sum :=
  ⟨(claim_C3_grouping_conserves_stake [vX5, vX7]).2.1,
   (claim_C3_grouping_conserves_stake [vX5, vX7]).1 (vkey vX5)
     (addV vX7 (addV vX5 emptyEntity)) (by with_unfolding_all decide)⟩

/-- C4: by_address merges two validators into one entity exactly when
their reward-address key sets coincide; every distinct key yields one
entity, each entity aggregates precisely the validators with its key, the
key only depends on the address list as a set, and the spec examples hold:
5 and 7 on the shared address X merge to 12, overlapping but unequal sets
stay distinct, and order or duplicates in the address list do not matter. -/
theorem claim_C4_merge_iff_equal_address_sets (vs : List Validator) :
    (keysOf (by_address_groups vs)).Nodup ∧
    (∀ k, k ∈ keysOf (by_address_groups vs) ↔ ∃ v ∈ vs, vkey v = k) ∧
    (∀ k e, (k, e) ∈ by_address_groups vs →
      e.totalWeight =
        ((vs.filter (fun v => decide (vkey v = k))).map (fun v => v.totalWeight)).sum) ∧
    (∀ u : Validator, vkey u = u.rewardAddresses.toFinset) ∧
    ((by_address [vX5, vX7]).map (fun e => e.totalWeight) = [12] ∧
      (by_address [vAB, vA]).length = 2 ∧
      (by_address [vXY, vYXX]).map (fun e => e.totalWeight) = [5]) :=
  ⟨by_address_groups_nodup vs,
   fun k => mem_keysOf_by_address_groups vs k,
   fun k e h => by_address_entity_totalWeight vs k e h,
   fun u => rfl,
   by with_unfolding_all decide, by with_unfolding_all decide,
   by with_unfolding_all decide⟩

/-- Witness for C4: address set X of the first example validator is a key
of the groups built from the two X validators. -/
theorem claim_C4_merge_iff_equal_address_sets_witness :
    vkey vX5 ∈ keysOf (by_address_groups [vX5, vX7]) :=
  ((claim_C4_merge_iff_equal_address_sets [vX5, vX7]).2.1 (vkey vX5)).mpr
    ⟨vX5, by simp, rfl⟩

section StakesLemmas

theorem by_address_entity_delegatorWeight (vs : List Validator) (k : Finset String)
    (e : Entity) (h : (k, e) ∈ by_address_groups vs) :
    e.delegatorWeight =
      ((vs.filter (fun v => decide (vkey v = k))).map delegatedOf).sum := by
  have hfind := findE_of_mem_nodup _ (by_address_groups_nodup vs) k e h
  rw [by_address_groups, findE_groupFold_empty] at hfind
  cases hfil : vs.filter (fun v => decide (vkey v = k)) with
  | nil =>
      rw [hfil] at hfind
      simp [applyAllD] at hfind
  | cons a as =>
      rw [hfil] at hfind
      simp only [applyAllD, Option.some.injEq] at hfind
      have hproj := proj_applyAll Entity.delegatorWeight addV delegatedOf
        (fun a v => addV_delegatorWeight a v) as (addV a emptyEntity)
      rw [hfind] at hproj
      rw [hproj, addV_delegatorWeight]
      simp [emptyEntity]

theorem by_address_stakes_isSome_iff (vs : List Validator) :
    ∀ groups : List (Finset String × EntityS),
      (by_address_stakes vs groups).isSome ↔ ∀ v ∈ vs, v.delegatedWeight.isSome := by
  induction vs with
  | nil => intro groups; simp [by_address_stakes]
  | cons v vs ih =>
      intro groups
      cases hdw : v.delegatedWeight with
      | none => simp [by_address_stakes, addVS, hdw]
      | some dw =>
          simp only [by_address_stakes, addVS, hdw]
          rw [ih]
          constructor
          · intro hall u hu
            rcases List.mem_cons.mp hu with he | hm
            · rw [he, hdw]
              rfl
            · exact hall u hm
          · intro hall u hu
            exact hall u (List.mem_cons_of_mem v hu)

end StakesLemmas

/-- C5: the claim of cross-call purity is right about the intended
contract, and the stakes.py code violates it: its groups dict is a mutable
default argument that survives between calls.  Evaluation at the failing
input: a first call on the one-validator list yields an entity of total
weight 5, and a second call on the very same input, receiving the dict the
first call left behind, yields 10. -/
theorem claim_C5_by_address_stakes_state_leak :
    (by_address_stakes [vX5] []).map (fun gs => gs.map (fun p => p.2.totalWeight)) =
      some [5] ∧
    ((by_address_stakes [vX5] []).bind (fun gs => by_address_stakes [vX5] gs)).map
      (fun gs => gs.map (fun p => p.2.totalWeight)) = some [10] := by
  constructor
  · with_unfolding_all decide
  · with_unfolding_all decide

/-- C6 as stated is false for the stakes.py grouper: it indexes the older
delegatedWeight field directly and raises a KeyError on a record that only
carries the newer delegatorWeight field. -/
theorem claim_C6_counterexample : by_address_stakes [vNewField] [] = none := by
  with_unfolding_all decide

/-- C6 amended: the hist groupers read the delegated weight under either
field name, preferring the newer delegatorWeight, defaulting to 0 when
both are absent, and never fail; the stakes.py grouper instead requires
the older delegatedWeight field and fails exactly when some record lacks
it. -/
theorem claim_C6_delegated_weight_fields (v : Validator) (a b : Int)
    (vs : List Validator) :
    (v.delegatorWeight = some a → delegatedOf v = a) ∧
    (v.delegatorWeight = none → v.delegatedWeight = some b → delegatedOf v = b) ∧
    (v.delegatorWeight = none → v.delegatedWeight = none → delegatedOf v = 0) ∧
    (∀ k e, (k, e) ∈ by_address_groups vs →
      e.delegatorWeight =
        ((vs.filter (fun u => decide (vkey u = k))).map delegatedOf).sum) ∧
    ((by_address_stakes vs []).isSome ↔ ∀ u ∈ vs, u.delegatedWeight.isSome) :=
  ⟨fun h => by simp [delegatedOf, h],
   fun h1 h2 => by simp [delegatedOf, h1, h2],
   fun h1 h2 => by simp [delegatedOf, h1, h2],
   fun k e h => by_address_entity_delegatorWeight vs k e h,
   by_address_stakes_isSome_iff vs []⟩

/-- Witness for C6: a record carrying only the newer field contributes its
delegatorWeight 3, and the stakes grouper call on it is not successful. -/
theorem claim_C6_delegated_weight_fields_witness :
    delegatedOf vNewField = 3 ∧
    ¬ (by_address_stakes [vNewField] []).isSome :=
  ⟨(claim_C6_delegated_weight_fields vNewField 3 0 []).1 rfl,
   fun hs =>
     by
       have h := ((claim_C6_delegated_weight_fields vNewField 3 0 [vNewField]).2.2.2.2).mp
         hs vNewField (by simp)
       simp [vNewField] at h⟩

section QuarterlyDates

/-- A zero-padded ISO date string YYYY-MM-DD, embedded by its numeric
fields; the lexicographic order on such strings is the lexicographic order
on the (year, month, day) triple. -/
structure DateStr where
  year : Nat
  month : Nat
  day : Nat
deriving DecidableEq

/-- Lexicographic (hence chronological) order on zero-padded ISO dates. -/
def dateLe (a b : DateStr) : Prop :=
  a.year < b.year ∨ (a.year = b.year ∧ a.month < b.month) ∨
    (a.year = b.year ∧ a.month = b.month ∧ a.day ≤ b.day)

/-- Strict lexicographic order on zero-padded ISO dates. -/
def dateLt (a b : DateStr) : Prop :=
  a.year < b.year ∨ (a.year = b.year ∧ a.month < b.month) ∨
    (a.year = b.year ∧ a.month = b.month ∧ a.day < b.day)

instance (a b : DateStr) : Decidable (dateLe a b) := by
  unfold dateLe
  exact inferInstance

instance (a b : DateStr) : Decidable (dateLt a b) := by
  unfold dateLt
  exact inferInstance

theorem dateLe_refl (a : DateStr) : dateLe a a := by
  unfold dateLe
  omega

/-- Year and quarter of a date, quarter = (month - 1) / 3 + 1 as computed
by the Python sources from strptime (months range over 1 to 12). -/
def quarterKey (d : DateStr) : Nat × Nat := (d.year, (d.month - 1) / 3 + 1)

/-- The tuple order Python sorted uses on (year, quarter) keys. -/
def keyLe (a b : Nat × Nat) : Prop := a.1 < b.1 ∨ (a.1 = b.1 ∧ a.2 ≤ b.2)

instance (a b : Nat × Nat) : Decidable (keyLe a b) := by
  unfold keyLe
  exact inferInstance

instance : IsTotal (Nat × Nat) keyLe :=
  ⟨by
    intro a b
    unfold keyLe
    omega⟩

instance : IsTrans (Nat × Nat) keyLe :=
  ⟨by
    intro a b c
    unfold keyLe
    omega⟩

/-- The quarters dict of get_quarterly_dates: dates grouped by year and
quarter in input order, each group keeping its dates in encounter order. -/
def quartersOf (dates : List DateStr) : List ((Nat × Nat) × List DateStr) :=
  groupFold quarterKey (fun d l => l ++ [d]) [] dates []

/-- get_quarterly_dates of hist/analyze.py (the version of
hist/nakamoto_analysis.py is the same computation): group the dates by
year and quarter, then for every key in sorted order append the last date
stored for that quarter. -/
def get_quarterly_dates (dates : List DateStr) : List DateStr :=
  ((keysOf (quartersOf dates)).insertionSort keyLe).map
    (fun k => ((findE (quartersOf dates) k).getD []).getLastD ⟨0, 0, 0⟩)

theorem applyAll_append_list (as : List DateStr) :
    ∀ l : List DateStr, applyAll (fun d l => l ++ [d]) as l = l ++ as := by
  induction as with
  | nil => intro l; simp [applyAll]
  | cons a as ih =>
      intro l
      have h1 : applyAll (fun d l => l ++ [d]) (a :: as) l
          = applyAll (fun d l => l ++ [d]) as (l ++ [a]) := rfl
      rw [h1, ih]
      simp

theorem findE_quartersOf (dates : List DateStr) (k : Nat × Nat) :
    findE (quartersOf dates) k =
      if dates.filter (fun d => decide (quarterKey d = k)) = [] then none
      else some (dates.filter (fun d => decide (quarterKey d = k))) := by
  rw [quartersOf, findE_groupFold_empty]
  cases hfil : dates.filter (fun d => decide (quarterKey d = k)) with
  | nil => simp [applyAllD]
  | cons a as =>
      simp [applyAllD, applyAll_append_list]

theorem getLastD_congr {α : Type} (l : List α) (d1 d2 : α) (h : l ≠ []) :
    l.getLastD d1 = l.getLastD d2 := by
  cases l with
  | nil => exact absurd rfl h
  | cons a t => rw [List.getLastD_cons, List.getLastD_cons]

theorem getLastD_mem_of_ne_nil {α : Type} : ∀ (l : List α) (d : α), l ≠ [] →
    l.getLastD d ∈ l := by
  intro l
  induction l with
  | nil => intro d h; exact absurd rfl h
  | cons a t ih =>
      intro d _
      rw [List.getLastD_cons]
      by_cases ht : t = []
      · subst ht
        simp [List.getLastD]
      · exact List.mem_cons_of_mem a (ih a ht)

theorem le_getLastD_of_sorted : ∀ l : List DateStr, l.Sorted dateLe →
    ∀ x ∈ l, dateLe x (l.getLastD ⟨0, 0, 0⟩) := by
  intro l
  induction l with
  | nil => simp
  | cons a t ih =>
      intro hs x hx
      obtain ⟨ha, ht⟩ := List.sorted_cons.mp hs
      rw [List.getLastD_cons]
      rcases List.mem_cons.mp hx with he | hm
      · by_cases htn : t = []
        · subst htn
          subst he
          simp [List.getLastD, dateLe_refl]
        · have hmem : t.getLastD a ∈ t := getLastD_mem_of_ne_nil t a htn
          rw [he]
          exact ha _ hmem
      · have hne : t ≠ [] := List.ne_nil_of_mem hm
        rw [getLastD_congr t a ⟨0, 0, 0⟩ hne]
        exact ih ht x hm

theorem quarters_pick_spec (dates : List DateStr) (hsort : dates.Sorted dateLe)
    (k : Nat × Nat) (hk : k ∈ keysOf (quartersOf dates)) :
    ((findE (quartersOf dates) k).getD []).getLastD ⟨0, 0, 0⟩ ∈ dates ∧
    quarterKey (((findE (quartersOf dates) k).getD []).getLastD ⟨0, 0, 0⟩) = k ∧
    (∀ d ∈ dates, quarterKey d = k →
      dateLe d (((findE (quartersOf dates) k).getD []).getLastD ⟨0, 0, 0⟩)) := by
  have hsome := (findE_isSome_iff_mem (quartersOf dates) k).mpr hk
  rw [findE_quartersOf] at hsome ⊢
  by_cases hfe : dates.filter (fun d => decide (quarterKey d = k)) = []
  · rw [if_pos hfe] at hsome
    simp at hsome
  · rw [if_neg hfe]
    simp only [Option.getD_some]
    have hfs : (dates.filter (fun d => decide (quarterKey d = k))).Sorted dateLe :=
      List.Pairwise.filter _ hsort
    have hpl := getLastD_mem_of_ne_nil
      (dates.filter (fun d => decide (quarterKey d = k))) (⟨0, 0, 0⟩ : DateStr) hfe
    have hin := List.mem_filter.mp hpl
    refine ⟨hin.1, by simpa using hin.2, ?_⟩
    intro d hd hdk
    have hdf : d ∈ dates.filter (fun d => decide (quarterKey d = k)) :=
      List.mem_filter.mpr ⟨hd, by simp [hdk]⟩
    exact le_getLastD_of_sorted _ hfs d hdf

theorem dateLt_of_quarterKey_lt (d1 d2 : DateStr) (h1 : 1 ≤ d1.month)
    (h2 : 1 ≤ d2.month) (hle : keyLe (quarterKey d1) (quarterKey d2))
    (hne : quarterKey d1 ≠ quarterKey d2) : dateLt d1 d2 := by
  unfold keyLe quarterKey at hle
  unfold quarterKey at hne
  simp only [ne_eq, Prod.mk.injEq, not_and] at hne
  unfold dateLt
  simp only at hle
  omega

set_option maxRecDepth 8192

/-- C8: on ascending-sorted valid ISO dates the quarterly selection yields
exactly one date per (year, quarter) pair present in the input, namely the
greatest date of that quarter, the output is chronologically sorted, and
the spec example picks 2024-03-31 for Q1 of 2024. -/
theorem claim_C8_quarterly_selection (dates : List DateStr)
    (hsort : dates.Sorted dateLe)
    (hvalid : ∀ d ∈ dates, 1 ≤ d.month ∧ d.month ≤ 12) :
    ((get_quarterly_dates dates).map quarterKey).Nodup ∧
    (∀ k, k ∈ (get_quarterly_dates dates).map quarterKey ↔ k ∈ dates.map quarterKey) ∧
    (∀ d ∈ get_quarterly_dates dates,
      d ∈ dates ∧ ∀ e ∈ dates, quarterKey e = quarterKey d → dateLe e d) ∧
    (get_quarterly_dates dates).Pairwise dateLt ∧
    get_quarterly_dates [⟨2024, 1, 15⟩, ⟨2024, 3, 29⟩, ⟨2024, 3, 31⟩, ⟨2024, 4, 2⟩] =
      [⟨2024, 3, 31⟩, ⟨2024, 4, 2⟩] := by
  have hres : get_quarterly_dates dates =
      ((keysOf (quartersOf dates)).insertionSort keyLe).map
        (fun k => ((findE (quartersOf dates) k).getD []).getLastD ⟨0, 0, 0⟩) := rfl
  have hskperm :
      List.Perm ((keysOf (quartersOf dates)).insertionSort keyLe)
        (keysOf (quartersOf dates)) := List.perm_insertionSort _ _
  have hqnd : (keysOf (quartersOf dates)).Nodup :=
    nodup_keysOf_groupFold quarterKey (fun d l => l ++ [d]) [] dates [] (by simp)
  have hsknd : ((keysOf (quartersOf dates)).insertionSort keyLe).Nodup :=
    hskperm.nodup_iff.mpr hqnd
  have hkeysmem : ∀ k, k ∈ keysOf (quartersOf dates) ↔ ∃ d ∈ dates, quarterKey d = k := by
    intro k
    rw [quartersOf, mem_keysOf_groupFold]
    simp
  have hpick_spec : ∀ k ∈ (keysOf (quartersOf dates)).insertionSort keyLe,
      ((findE (quartersOf dates) k).getD []).getLastD ⟨0, 0, 0⟩ ∈ dates ∧
      quarterKey (((findE (quartersOf dates) k).getD []).getLastD ⟨0, 0, 0⟩) = k ∧
      (∀ d ∈ dates, quarterKey d = k →
        dateLe d (((findE (quartersOf dates) k).getD []).getLastD ⟨0, 0, 0⟩)) :=
    fun k hk => quarters_pick_spec dates hsort k (hskperm.mem_iff.mp hk)
  have hmapkey : (get_quarterly_dates dates).map quarterKey =
      (keysOf (quartersOf dates)).insertionSort keyLe := by
    rw [hres, List.map_map]
    have hcg := List.map_congr_left
      (l := (keysOf (quartersOf dates)).insertionSort keyLe)
      (f := quarterKey ∘ fun k => ((findE (quartersOf dates) k).getD []).getLastD ⟨0, 0, 0⟩)
      (g := id) (fun k hk => (hpick_spec k hk).2.1)
    rw [hcg, List.map_id]
  refine ⟨?_, ?_, ?_, ?_, ?_⟩
  · rw [hmapkey]
    exact hsknd
  · intro k
    rw [hmapkey, hskperm.mem_iff, hkeysmem, List.mem_map]
  · intro d hd
    rw [hres] at hd
    rcases List.mem_map.mp hd with ⟨k, hk, he⟩
    obtain ⟨hmem, hqk, hmax⟩ := hpick_spec k hk
    subst he
    refine ⟨hmem, ?_⟩
    intro e hemem heq
    exact hmax e hemem (heq.trans hqk)
  · rw [hres]
    apply List.pairwise_map.mpr
    have hsorted_sk : ((keysOf (quartersOf dates)).insertionSort keyLe).Sorted keyLe :=
      List.sorted_insertionSort keyLe _
    have hpw : ((keysOf (quartersOf dates)).insertionSort keyLe).Pairwise
        (fun a b => keyLe a b ∧ a ≠ b) := hsorted_sk.and hsknd
    apply List.Pairwise.imp_of_mem ?_ hpw
    intro a b ha hb hab
    obtain ⟨hm1, hq1, _⟩ := hpick_spec a ha
    obtain ⟨hm2, hq2, _⟩ := hpick_spec b hb
    apply dateLt_of_quarterKey_lt
    · exact (hvalid _ hm1).1
    · exact (hvalid _ hm2).1
    · rw [hq1, hq2]
      exact hab.1
    · rw [hq1, hq2]
      exact hab.2
  · with_unfolding_all decide

/-- Witness for C8 at the spec example list of four dates. -/
theorem claim_C8_quarterly_selection_witness :
    get_quarterly_dates [⟨2024, 1, 15⟩, ⟨2024, 3, 29⟩, ⟨2024, 3, 31⟩, ⟨2024, 4, 2⟩] =
      [⟨2024, 3, 31⟩, ⟨2024, 4, 2⟩] :=
  (claim_C8_quarterly_selection
    [⟨2024, 1, 15⟩, ⟨2024, 3, 29⟩, ⟨2024, 3, 31⟩, ⟨2024, 4, 2⟩]
    (by with_unfolding_all decide) (by with_unfolding_all decide)).2.2.2.2

end QuarterlyDates

section Generators

/-- numpy max of an array; the sources only apply it to nonempty data, the
empty case is given the junk value 0. -/
def npMax (l : List ℚ) : ℚ :=
  match l with
  | [] => 0
  | x :: xs => xs.foldl max x

/-- The seed expression of stakes.py: seed is passed as args.seed when
args.seed is truthy and as None otherwise, so an explicit integer seed of
0 is falsy and leaves the generator unseeded. -/
def effSeed (seed : Int) : Option Int :=
  if seed = 0 then none else some seed

/-- The log-logistic density lambda of gini_66 with shape parameter b. -/
def pdf_a (b : ℕ) (x : ℚ) : ℚ := b * x ^ (b - 1) / (1 + x ^ b) ^ 2

/-- gini_33 of stakes.py, the uniformly random reference distribution.
The pseudo-random generator is a parameter taking the optional seed, an
ambient entropy source consulted when unseeded, and the draw count; the
body is the source computation over the draws, returning the pdf, the
renormalized pdf, and the renormalized cdf. -/
def gini_33 (gen : Option Int → Nat → Nat → List ℚ) (seed : Int) (entropy : Nat)
    (a : List ℚ) : List ℚ × List ℚ × List ℚ :=
  let rnd := gen (effSeed seed) entropy a.length
  let uni_a0 := rnd.map (fun x => x / (a.length : ℚ))
  let uni_a := uni_a0.map (fun x => x / npMax uni_a0)
  let cum_a := cumsum (sortAsc uni_a)
  (uni_a,
   uni_a.map (fun x => x / uni_a.sum * a.sum),
   cum_a.map (fun x => x / npMax cum_a * npMax a))

/-- gini_66 of stakes.py, the log-logistic reference distribution with
shape parameter 5, applied to sorted uniform draws. -/
def gini_66 (gen : Option Int → Nat → Nat → List ℚ) (seed : Int) (entropy : Nat)
    (a : List ℚ) : List ℚ × List ℚ × List ℚ :=
  let rnd := gen (effSeed seed) entropy a.length
  let uni_a := rnd.map (fun x => x / (a.length : ℚ))
  let log_a0 := (sortAsc uni_a).map (pdf_a 5)
  let log_a := log_a0.map (fun x => x / npMax log_a0)
  let cum_a := cumsum log_a
  (log_a,
   log_a.map (fun x => x / log_a.sum * a.sum),
   cum_a.map (fun x => x / npMax cum_a * npMax a))

/-- A concrete pseudo-random generator exhibiting the seed handling: the
seeded branch ignores the ambient entropy, the unseeded branch depends on
it. -/
def genCx : Option Int → Nat → Nat → List ℚ
  | some _, _, n => List.replicate n 1
  | none, e, n =>
      if e = 0 then List.replicate n 1 else (List.range n).map (fun i => (i : ℚ) + 1)

end Generators

/-- C9 as stated is false: an explicitly supplied seed of 0 is falsy in
the Python conditional, so the generator runs unseeded and the output can
differ between two runs with the same seed and input, exhibited by a
generator whose seeded branch is entropy-independent. -/
theorem claim_C9_counterexample :
    (∀ (s : Int) (e1 e2 n : Nat), genCx (some s) e1 n = genCx (some s) e2 n) ∧
    (gini_33 genCx 0 0 [1, 1]).1 ≠ (gini_33 genCx 0 1 [1, 1]).1 := by
  constructor
  · intro s e1 e2 n
    rfl
  · with_unfolding_all decide

/-- C9 amended: for every explicitly supplied nonzero seed the uniform and
log-logistic generators are deterministic: the seed is passed to the
pseudo-random generator, whose seeded draws do not depend on ambient
entropy, so two runs on the same input produce identical outputs; a seed
of 0 is treated as absent. -/
theorem claim_C9_generator_determinism (gen : Option Int → Nat → Nat → List ℚ)
    (hgen : ∀ (s : Int) (e1 e2 n : Nat), gen (some s) e1 n = gen (some s) e2 n)
    (seed : Int) (hs : seed ≠ 0) (e1 e2 : Nat) (a : List ℚ) :
    gini_33 gen seed e1 a = gini_33 gen seed e2 a ∧
    gini_66 gen seed e1 a = gini_66 gen seed e2 a := by
  have he : effSeed seed = some seed := by simp [effSeed, hs]
  constructor
  · unfold gini_33
    rw [he, hgen seed e1 e2 a.length]
  · unfold gini_66
    rw [he, hgen seed e1 e2 a.length]

/-- Witness for C9 at the concrete generator, seed 1, two entropies. -/
theorem claim_C9_generator_determinism_witness :
    gini_33 genCx 1 0 [1, 1] = gini_33 genCx 1 5 [1, 1] ∧
    gini_66 genCx 1 0 [1, 1] = gini_66 genCx 1 5 [1, 1] :=
  claim_C9_generator_determinism genCx (fun s e1 e2 n => rfl) 1 (by norm_num) 0 5 [1, 1]
